import Mathlib

/-!
Shallow embedding of the knGraph repository ingester (src/parser.py,
src/ingester.py, src/models.py) and proofs about its behaviour.

The Python AST fragment relevant to the program is embedded as inductive
types `Expr` and `Stmt`; `ast.walk` (breadth-first traversal) is `walkBFS`;
the `CallVisitor` of `parse_function_calls` becomes the pure recursion
`visitStmts`/`visitExpr` with the mutable `current_function` slot passed
explicitly; the per-file driver `parse_file` and the repository driver
`parse_repository` thread an explicit `RepositoryData`; the call-resolution
loop of `Neo4jIngester.ingest_calls` becomes a pure function returning the
list of created call edges.
-/

namespace KnGraph

/-- Expression fragment of the Python AST used by the program: bare names,
attribute accesses, calls, subscripts and opaque constants. -/
inductive Expr : Type
  | name (id : String)
  | attribute (value : Expr) (attr : String)
  | call (func : Expr) (args : List Expr)
  | subscript (value : Expr) (index : Expr)
  | constant
deriving Repr

/-- Import alias as in `ast.alias`: the program only reads `alias.name`. -/
structure ImportAlias where
  name : String
deriving Repr

/-- Statement fragment of the Python AST used by the program. Function,
coroutine-function and class declarations carry their body; `ifStmt` stands
for the compound statements whose bodies `ast.walk` and `generic_visit`
descend into without changing the function context. -/
inductive Stmt : Type
  | functionDef (name : String) (lineno : Nat) (body : List Stmt)
  | asyncFunctionDef (name : String) (lineno : Nat) (body : List Stmt)
  | classDef (name : String) (lineno : Nat) (body : List Stmt)
  | importStmt (names : List ImportAlias)
  | importFrom (module : Option String) (names : List ImportAlias)
  | exprStmt (value : Expr)
  | ifStmt (test : Expr) (body : List Stmt) (orelse : List Stmt)
deriving Repr

/-- Child statements of a statement, as `ast.iter_child_nodes` yields them
(restricted to statement children; expression children contain no statement
in Python, so the statement-level walk is complete for the walks the
program performs). -/
def childStmts : Stmt → List Stmt
  | .functionDef _ _ body => body
  | .asyncFunctionDef _ _ body => body
  | .classDef _ _ body => body
  | .importStmt _ => []
  | .importFrom _ _ => []
  | .exprStmt _ => []
  | .ifStmt _ body orelse => body ++ orelse

mutual

/-- Size of a statement, counting each node once. -/
def stmtSize : Stmt → Nat
  | .functionDef _ _ body => 1 + stmtsSize body
  | .asyncFunctionDef _ _ body => 1 + stmtsSize body
  | .classDef _ _ body => 1 + stmtsSize body
  | .importStmt _ => 1
  | .importFrom _ _ => 1
  | .exprStmt _ => 1
  | .ifStmt _ body orelse => 1 + stmtsSize body + stmtsSize orelse

/-- Total size of a list of statements. -/
def stmtsSize : List Stmt → Nat
  | [] => 0
  | s :: rest => stmtSize s + stmtsSize rest

end

/-- Breadth-first walk over a queue of statements with explicit fuel: pop
the front node, yield it, push its children at the back. The fuel only
serves structural termination; `stmtsSize queue` is always enough
(`walkFuel_congr`). -/
def walkFuel : Nat → List Stmt → List Stmt
  | _, [] => []
  | 0, _ :: _ => []
  | fuel + 1, s :: rest => s :: walkFuel fuel (rest ++ childStmts s)

/-- Breadth-first walk over a queue of statements, as `ast.walk`: pop the
front node, yield it, push its children at the back. -/
def walkBFS (queue : List Stmt) : List Stmt :=
  walkFuel (stmtsSize queue) queue

/-- A file node, as in `models.FileNode`. -/
structure FileNode where
  path : String
  relative_path : String
deriving DecidableEq, Repr

/-- A function node, as in `models.FunctionNode`. -/
structure FunctionNode where
  id : String
  name : String
  file_path : String
  line_number : Nat
deriving DecidableEq, Repr

/-- A class node, as in `models.ClassNode`. -/
structure ClassNode where
  id : String
  name : String
  file_path : String
  line_number : Nat
deriving DecidableEq, Repr

/-- An import relationship, as in `models.ImportRelation`. -/
structure ImportRelation where
  from_file : String
  to_file : String
  import_name : String
deriving DecidableEq, Repr

/-- A call relationship, as in `models.CallRelation`. -/
structure CallRelation where
  from_function : String
  to_function : String
deriving DecidableEq, Repr

/-- Container for all parsed repository data, as in `models.RepositoryData`.
The Python `dict` used for `function_map` is embedded as an insertion-ordered
association list without duplicate keys (see `mapInsert`/`mapGet`). -/
structure RepositoryData where
  files : List FileNode
  functions : List FunctionNode
  classes : List ClassNode
  imports : List ImportRelation
  calls : List CallRelation
  function_map : List (String × String)
deriving DecidableEq, Repr

/-- Insertion into a Python `dict` viewed as an insertion-ordered association
list: an existing key keeps its position and gets the new value, a new key is
appended at the end. -/
def mapInsert (m : List (String × String)) (k v : String) : List (String × String) :=
  if m.any (fun p => p.1 = k) then
    m.map (fun p => if p.1 = k then (k, v) else p)
  else
    m ++ [(k, v)]

/-- Lookup in a Python `dict` viewed as an association list (`dict.get`). -/
def mapGet (m : List (String × String)) (k : String) : Option String :=
  (m.find? (fun p => p.1 = k)).map (fun p => p.2)

/-- Splitting of a character list at every occurrence of a separator,
keeping empty pieces, as Python `str.split` with a one-character separator.
The accumulator holds the current piece reversed. -/
def splitCharAux (sep : Char) : List Char → List Char → List (List Char)
  | [], acc => [acc.reverse]
  | c :: cs, acc =>
      if c = sep then acc.reverse :: splitCharAux sep cs []
      else splitCharAux sep cs (c :: acc)

/-- Python `s.split(sep)` for a one-character separator. -/
def pySplit (s : String) (sep : Char) : List String :=
  (splitCharAux sep s.data []).map (fun l => String.mk l)

/-- Path built from a dotted module name in `parse_imports`:
`os.path.join(*module_parts) + ".py"` with `/` as path separator. -/
def modulePotentialPath (moduleName : String) : String :=
  String.intercalate "/" (pySplit moduleName '.') ++ ".py"

/-- Import edges contributed by one AST node, as the two branches of the
loop body in `RepositoryParser.parse_imports`. -/
def importEdgesOf (file_path : String) : Stmt → List ImportRelation
  | .importStmt names =>
      names.map (fun a =>
        { from_file := file_path
          to_file := modulePotentialPath a.name
          import_name := a.name })
  | .importFrom module names =>
      match module with
      | some m =>
          names.map (fun a =>
            { from_file := file_path
              to_file := modulePotentialPath m
              import_name := m ++ "." ++ a.name })
      | none => []
  | _ => []

/-- Extraction of import statements from the AST, as
`RepositoryParser.parse_imports`: iterate `ast.walk` and collect the edges
of every `Import` and `ImportFrom` node. -/
def parse_imports (tree : List Stmt) (file_path : String) : List ImportRelation :=
  (walkBFS tree).flatMap (importEdgesOf file_path)

/-- Candidate called-name for a call target, as the conditional chain in
`CallVisitor.visit_Call`: a bare name yields the identifier, an attribute
access on a bare name yields "receiver.attr", an attribute access on any
other expression yields just the attribute, anything else yields none. -/
def callName : Expr → Option String
  | .name id => some id
  | .attribute value attr =>
      match value with
      | .name recv => some (recv ++ "." ++ attr)
      | _ => some attr
  | _ => none

mutual

/-- Traversal of one expression by `CallVisitor` with the given
`current_function` slot: a call node first records its edge (when a current
function exists and a candidate name is found), then `generic_visit`
descends into the children in field order. -/
def visitExpr (file_path : String) (cur : Option String) : Expr → List CallRelation
  | .name _ => []
  | .attribute value _ => visitExpr file_path cur value
  | .call func args =>
      (match cur, callName func with
       | some c, some n => [{ from_function := c, to_function := n }]
       | _, _ => []) ++
      visitExpr file_path cur func ++ visitExprs file_path cur args
  | .subscript value index =>
      visitExpr file_path cur value ++ visitExpr file_path cur index
  | .constant => []

/-- Traversal of a list of expressions in order. -/
def visitExprs (file_path : String) (cur : Option String) : List Expr → List CallRelation
  | [] => []
  | e :: es => visitExpr file_path cur e ++ visitExprs file_path cur es

end

mutual

/-- Traversal of one statement by `CallVisitor`: entering a function or
coroutine-function declaration sets `current_function` to the synthesized
id "{file_path}::{name}" for the body and restores the previous value on
exit (the pure recursion passes the new value down and keeps using `cur`
afterwards); every other statement is traversed by `generic_visit` with the
slot unchanged. -/
def visitStmt (file_path : String) (cur : Option String) : Stmt → List CallRelation
  | .functionDef name _ body =>
      visitStmts file_path (some (file_path ++ "::" ++ name)) body
  | .asyncFunctionDef name _ body =>
      visitStmts file_path (some (file_path ++ "::" ++ name)) body
  | .classDef _ _ body => visitStmts file_path cur body
  | .importStmt _ => []
  | .importFrom _ _ => []
  | .exprStmt value => visitExpr file_path cur value
  | .ifStmt test body orelse =>
      visitExpr file_path cur test ++ visitStmts file_path cur body ++
      visitStmts file_path cur orelse

/-- Traversal of a list of statements in order. -/
def visitStmts (file_path : String) (cur : Option String) : List Stmt → List CallRelation
  | [] => []
  | s :: rest => visitStmt file_path cur s ++ visitStmts file_path cur rest

end

/-- Extraction of function calls from the AST, as
`RepositoryParser.parse_function_calls`: run `CallVisitor` on the module
body with no current function. -/
def parse_function_calls (tree : List Stmt) (file_path : String) : List CallRelation :=
  visitStmts file_path none tree

/-- Loop body of `RepositoryParser.extract_functions_and_classes` applied
to the node sequence produced by `ast.walk`: function and coroutine-function
declarations yield a `FunctionNode` and write `name → id` into the
function map (overwriting), class declarations yield a `ClassNode`. -/
def extractNodes (file_path : String) :
    List Stmt → List (String × String) →
    List FunctionNode × List ClassNode × List (String × String)
  | [], fmap => ([], [], fmap)
  | s :: rest, fmap =>
      match s with
      | .functionDef name lineno _ =>
          let func_id := file_path ++ "::" ++ name
          let r := extractNodes file_path rest (mapInsert fmap name func_id)
          (⟨func_id, name, file_path, lineno⟩ :: r.1, r.2.1, r.2.2)
      | .asyncFunctionDef name lineno _ =>
          let func_id := file_path ++ "::" ++ name
          let r := extractNodes file_path rest (mapInsert fmap name func_id)
          (⟨func_id, name, file_path, lineno⟩ :: r.1, r.2.1, r.2.2)
      | .classDef name lineno _ =>
          let r := extractNodes file_path rest fmap
          (r.1, ⟨file_path ++ "::" ++ name, name, file_path, lineno⟩ :: r.2.1, r.2.2)
      | _ => extractNodes file_path rest fmap

/-- Extraction of function and class definitions, as
`RepositoryParser.extract_functions_and_classes`: iterate `ast.walk` over
the tree, returning the per-file node lists and the updated function map. -/
def extract_functions_and_classes (tree : List Stmt) (file_path : String)
    (fmap : List (String × String)) :
    List FunctionNode × List ClassNode × List (String × String) :=
  extractNodes file_path (walkBFS tree) fmap

/-- A discovered source file: its absolute path, its path relative to the
repository root, and the outcome of reading and parsing its text — `none`
when reading the text or parsing it into a syntax tree raises, `some tree`
when it parses to a module with the given body. -/
structure PyFile where
  path : String
  relativePath : String
  parsed : Option (List Stmt)

/-- Per-file driver, as `RepositoryParser.parse_file`: when reading or
parsing fails the exception is caught and `false` is returned with the
aggregate untouched; otherwise the file node, imports, functions, classes
and calls are appended to the aggregate and `true` is returned. -/
def parse_file (data : RepositoryData) (f : PyFile) : Bool × RepositoryData :=
  match f.parsed with
  | none => (false, data)
  | some tree =>
      let file_node : FileNode := ⟨f.path, f.relativePath⟩
      let file_imports := parse_imports tree f.relativePath
      let efc := extract_functions_and_classes tree f.relativePath data.function_map
      let file_calls := parse_function_calls tree f.relativePath
      (true,
        { files := data.files ++ [file_node]
          functions := data.functions ++ efc.1
          classes := data.classes ++ efc.2.1
          imports := data.imports ++ file_imports
          calls := data.calls ++ file_calls
          function_map := efc.2.2 })

/-- Empty aggregate, as `RepositoryData([], [], [], [], [], {})`. -/
def emptyData : RepositoryData :=
  { files := [], functions := [], classes := [], imports := [], calls := [],
    function_map := [] }

/-- Repository driver loop, as the body of
`RepositoryParser.parse_repository`: fold `parse_file` over the discovered
files, counting successes. -/
def parseRepoLoop (acc : RepositoryData × Nat) (fs : List PyFile) :
    RepositoryData × Nat :=
  match fs with
  | [] => acc
  | f :: rest =>
      let r := parse_file acc.1 f
      parseRepoLoop (r.2, if r.1 then acc.2 + 1 else acc.2) rest

/-- Repository driver, as `RepositoryParser.parse_repository`: parse every
discovered file and return the aggregate together with the success count. -/
def parse_repository (fs : List PyFile) : RepositoryData × Nat :=
  parseRepoLoop (emptyData, 0) fs

/-- Call-edge resolution at ingestion, as the loop of
`Neo4jIngester.ingest_calls`: each Call-edge's `to_function` name is looked
up in the function map; a successful lookup creates the edge
`(from_function, resolved id)`, a failed lookup creates nothing. -/
def ingest_calls (calls : List CallRelation)
    (function_map : List (String × String)) : List (String × String) :=
  calls.flatMap (fun call =>
    match mapGet function_map call.to_function with
    | some to_function_id => [(call.from_function, to_function_id)]
    | none => [])

/-- Reachability between statements along `childStmts`, the reflexive-
transitive closure of the child relation that `ast.walk` enumerates. -/
inductive SubStmt : Stmt → Stmt → Prop
  | refl (s : Stmt) : SubStmt s s
  | child {s t u : Stmt} : t ∈ childStmts s → SubStmt t u → SubStmt s u

/-- A statement is a function or coroutine-function declaration with the
given name. -/
def IsFunDeclOf (t : Stmt) (nm : String) : Prop :=
  (∃ lineno body, t = .functionDef nm lineno body) ∨
  (∃ lineno body, t = .asyncFunctionDef nm lineno body)

/-- A string contains no dot character. Python identifiers — in particular
the `name` field of every function declaration node — satisfy it. -/
def dotFree (s : String) : Bool := s.data.all (fun ch => ch ≠ '.')

/-- Declared function and coroutine-function names of a single node are
dot-free (other nodes impose nothing). -/
def stmtNamesDotFree : Stmt → Bool
  | .functionDef n _ _ => dotFree n
  | .asyncFunctionDef n _ _ => dotFree n
  | _ => true

/-- All function names declared anywhere in a tree are dot-free. -/
def treeDefsDotFree (tree : List Stmt) : Bool :=
  (walkBFS tree).all stmtNamesDotFree

/-- All function names declared in a file are dot-free; a file that failed
to parse imposes nothing. -/
def fileDefsDotFree (f : PyFile) : Bool :=
  match f.parsed with
  | some tree => treeDefsDotFree tree
  | none => true

/-- Source-side referential integrity of the aggregate: every Import-edge
originates at a recorded file and every Call-edge at a recorded function. -/
def SourcesOk (d : RepositoryData) : Prop :=
  (∀ imp ∈ d.imports, ∃ f ∈ d.files, imp.from_file = f.relative_path) ∧
  (∀ c ∈ d.calls, ∃ fn ∈ d.functions, c.from_function = fn.id)

/-- Every entry of the name→id table corresponds to a discovered function:
the key is its declared name and the value its synthesized id. -/
def FunctionMapOk (d : RepositoryData) : Prop :=
  ∀ kv ∈ d.function_map, ∃ fn ∈ d.functions, fn.name = kv.1 ∧ fn.id = kv.2

/-- Every key of the name→id table is dot-free. -/
def MapKeysDotFree (d : RepositoryData) : Prop :=
  ∀ kv ∈ d.function_map, dotFree kv.1 = true

theorem stmtsSize_append (xs ys : List Stmt) :
    stmtsSize (xs ++ ys) = stmtsSize xs + stmtsSize ys := by
  induction xs with
  | nil => simp [stmtsSize]
  | cons s rest ih => simp [stmtsSize, ih]; ring

theorem stmtsSize_childStmts_lt (s : Stmt) : stmtsSize (childStmts s) < stmtSize s := by
  cases s <;> simp [childStmts, stmtSize, stmtsSize, stmtsSize_append]

theorem stmtSize_pos (s : Stmt) : 1 ≤ stmtSize s := by
  cases s <;> simp only [stmtSize] <;> omega

theorem stmtsSize_tail_lt (s : Stmt) (rest : List Stmt) :
    stmtsSize (rest ++ childStmts s) < stmtsSize (s :: rest) := by
  have h1 := stmtsSize_childStmts_lt s
  have h2 : stmtsSize (s :: rest) = stmtSize s + stmtsSize rest := rfl
  simp only [stmtsSize_append, h2]
  omega

theorem walkFuel_eq_size (fuel : Nat) :
    ∀ (queue : List Stmt), stmtsSize queue ≤ fuel →
      walkFuel fuel queue = walkFuel (stmtsSize queue) queue := by
  induction fuel using Nat.strong_induction_on with
  | _ fuel ih =>
    intro queue hfuel
    match queue with
    | [] => cases fuel <;> rfl
    | s :: rest =>
      have hpos := stmtSize_pos s
      have hsz : stmtsSize (s :: rest) = stmtSize s + stmtsSize rest := rfl
      have hlt := stmtsSize_tail_lt s rest
      obtain ⟨f, rfl⟩ : ∃ f, fuel = f + 1 := ⟨fuel - 1, by omega⟩
      obtain ⟨k, hk⟩ : ∃ k, stmtsSize (s :: rest) = k + 1 :=
        ⟨stmtsSize (s :: rest) - 1, by omega⟩
      rw [hk]
      simp only [walkFuel]
      have ha := ih f (by omega) (rest ++ childStmts s) (by omega)
      have hb := ih k (by omega) (rest ++ childStmts s) (by omega)
      rw [ha, hb]

theorem walkBFS_nil : walkBFS [] = [] := rfl

theorem walkBFS_cons (s : Stmt) (rest : List Stmt) :
    walkBFS (s :: rest) = s :: walkBFS (rest ++ childStmts s) := by
  have hpos := stmtSize_pos s
  have hlt := stmtsSize_tail_lt s rest
  show walkFuel (stmtsSize (s :: rest)) (s :: rest) = _
  obtain ⟨k, hk⟩ : ∃ k, stmtsSize (s :: rest) = k + 1 :=
    ⟨stmtsSize (s :: rest) - 1, by omega⟩
  rw [hk]
  simp only [walkFuel, walkBFS]
  exact congrArg _ (walkFuel_eq_size k _ (by omega))

theorem visitExprs_append (fp : String) (cur : Option String) (xs ys : List Expr) :
    visitExprs fp cur (xs ++ ys) = visitExprs fp cur xs ++ visitExprs fp cur ys := by
  induction xs with
  | nil => simp [visitExprs]
  | cons e es ih => simp [visitExprs, ih]

theorem visitStmts_append (fp : String) (cur : Option String) (xs ys : List Stmt) :
    visitStmts fp cur (xs ++ ys) = visitStmts fp cur xs ++ visitStmts fp cur ys := by
  induction xs with
  | nil => simp [visitStmts]
  | cons s ss ih => simp [visitStmts, ih]


theorem mem_walkFuel_iff (fuel : Nat) :
    ∀ (queue : List Stmt), stmtsSize queue ≤ fuel →
      ∀ t, t ∈ walkFuel fuel queue ↔ ∃ s ∈ queue, SubStmt s t := by
  induction fuel with
  | zero =>
    intro queue hq t
    match queue with
    | [] => simp [walkFuel]
    | s :: rest =>
      have := stmtSize_pos s
      have : stmtsSize (s :: rest) = stmtSize s + stmtsSize rest := rfl
      omega
  | succ fuel ih =>
    intro queue hq t
    match queue with
    | [] => simp [walkFuel]
    | s :: rest =>
      have hsz : stmtsSize (s :: rest) = stmtSize s + stmtsSize rest := rfl
      have hlt := stmtsSize_tail_lt s rest
      have hrec := ih (rest ++ childStmts s) (by omega) t
      simp only [walkFuel, List.mem_cons, hrec]
      constructor
      · rintro (rfl | ⟨u, hu, hsub⟩)
        · exact ⟨t, Or.inl rfl, SubStmt.refl t⟩
        · rcases List.mem_append.1 hu with hu | hu
          · exact ⟨u, Or.inr hu, hsub⟩
          · exact ⟨s, Or.inl rfl, SubStmt.child hu hsub⟩
      · rintro ⟨v, hv, hsub⟩
        rcases hv with rfl | hv
        · cases hsub with
          | refl => exact Or.inl rfl
          | child hmem hsub =>
            exact Or.inr ⟨_, List.mem_append.2 (Or.inr hmem), hsub⟩
        · exact Or.inr ⟨v, List.mem_append.2 (Or.inl hv), hsub⟩

theorem mem_walkBFS_iff (queue : List Stmt) (t : Stmt) :
    t ∈ walkBFS queue ↔ ∃ s ∈ queue, SubStmt s t :=
  mem_walkFuel_iff (stmtsSize queue) queue (le_refl _) t


mutual

theorem visitExpr_cur (fp : String) (cur : Option String) :
    ∀ (e : Expr) (c : CallRelation), c ∈ visitExpr fp cur e →
      ∃ cf, cur = some cf ∧ c.from_function = cf
  | .name i, c, hc => by simp [visitExpr] at hc
  | .attribute v a, c, hc =>
      visitExpr_cur fp cur v c (by simpa [visitExpr] using hc)
  | .call f args, c, hc => by
      cases cur with
      | none =>
        cases hcn : callName f <;>
          simp only [visitExpr, hcn, List.nil_append, List.mem_append] at hc <;>
          rcases hc with hc | hc
        · exact visitExpr_cur fp none f c hc
        · exact visitExprs_cur fp none args c hc
        · exact visitExpr_cur fp none f c hc
        · exact visitExprs_cur fp none args c hc
      | some cf =>
        cases hcn : callName f with
        | none =>
          simp only [visitExpr, hcn, List.nil_append, List.mem_append] at hc
          rcases hc with hc | hc
          · exact visitExpr_cur fp (some cf) f c hc
          · exact visitExprs_cur fp (some cf) args c hc
        | some n =>
          simp only [visitExpr, hcn, List.cons_append, List.nil_append,
            List.mem_cons, List.mem_append] at hc
          rcases hc with rfl | hc | hc
          · exact ⟨cf, rfl, rfl⟩
          · exact visitExpr_cur fp (some cf) f c hc
          · exact visitExprs_cur fp (some cf) args c hc
  | .subscript v i, c, hc => by
      simp only [visitExpr, List.mem_append] at hc
      rcases hc with hc | hc
      · exact visitExpr_cur fp cur v c hc
      · exact visitExpr_cur fp cur i c hc
  | .constant, c, hc => by simp [visitExpr] at hc

theorem visitExprs_cur (fp : String) (cur : Option String) :
    ∀ (es : List Expr) (c : CallRelation), c ∈ visitExprs fp cur es →
      ∃ cf, cur = some cf ∧ c.from_function = cf
  | [], c, hc => by simp [visitExprs] at hc
  | e :: es, c, hc => by
      simp only [visitExprs, List.mem_append] at hc
      rcases hc with hc | hc
      · exact visitExpr_cur fp cur e c hc
      · exact visitExprs_cur fp cur es c hc

end

mutual

theorem visitStmt_from (fp : String) (cur : Option String) :
    ∀ (s : Stmt) (c : CallRelation), c ∈ visitStmt fp cur s →
      (∃ cf, cur = some cf ∧ c.from_function = cf) ∨
      (∃ t nm, SubStmt s t ∧ IsFunDeclOf t nm ∧
        c.from_function = fp ++ "::" ++ nm)
  | .functionDef name lineno body, c, hc => by
      have hc' : c ∈ visitStmts fp (some (fp ++ "::" ++ name)) body := by
        simpa [visitStmt] using hc
      rcases visitStmts_from fp (some (fp ++ "::" ++ name)) body c hc' with
        ⟨cf, hcf, hfrom⟩ | ⟨s', hs', t, nm, hsub, hdecl, hfrom⟩
      · refine Or.inr ⟨.functionDef name lineno body, name, SubStmt.refl _,
          Or.inl ⟨lineno, body, rfl⟩, ?_⟩
        rw [hfrom, (Option.some_inj.1 hcf).symm]
      · exact Or.inr ⟨t, nm,
          SubStmt.child (show s' ∈ childStmts (.functionDef name lineno body) from hs')
            hsub, hdecl, hfrom⟩
  | .asyncFunctionDef name lineno body, c, hc => by
      have hc' : c ∈ visitStmts fp (some (fp ++ "::" ++ name)) body := by
        simpa [visitStmt] using hc
      rcases visitStmts_from fp (some (fp ++ "::" ++ name)) body c hc' with
        ⟨cf, hcf, hfrom⟩ | ⟨s', hs', t, nm, hsub, hdecl, hfrom⟩
      · refine Or.inr ⟨.asyncFunctionDef name lineno body, name, SubStmt.refl _,
          Or.inr ⟨lineno, body, rfl⟩, ?_⟩
        rw [hfrom, (Option.some_inj.1 hcf).symm]
      · exact Or.inr ⟨t, nm,
          SubStmt.child (show s' ∈ childStmts (.asyncFunctionDef name lineno body) from hs')
            hsub, hdecl, hfrom⟩
  | .classDef name lineno body, c, hc => by
      have hc' : c ∈ visitStmts fp cur body := by simpa [visitStmt] using hc
      rcases visitStmts_from fp cur body c hc' with h | ⟨s', hs', t, nm, hsub, hdecl, hfrom⟩
      · exact Or.inl h
      · exact Or.inr ⟨t, nm,
          SubStmt.child (show s' ∈ childStmts (.classDef name lineno body) from hs')
            hsub, hdecl, hfrom⟩
  | .importStmt names, c, hc => by simp [visitStmt] at hc
  | .importFrom m names, c, hc => by simp [visitStmt] at hc
  | .exprStmt value, c, hc =>
      Or.inl (visitExpr_cur fp cur value c (by simpa [visitStmt] using hc))
  | .ifStmt test body orelse, c, hc => by
      simp only [visitStmt, List.mem_append] at hc
      rcases hc with (hc | hc) | hc
      · exact Or.inl (visitExpr_cur fp cur test c hc)
      · rcases visitStmts_from fp cur body c hc with h | ⟨s', hs', t, nm, hsub, hdecl, hfrom⟩
        · exact Or.inl h
        · exact Or.inr ⟨t, nm,
            SubStmt.child (show s' ∈ childStmts (.ifStmt test body orelse) from
              List.mem_append.2 (Or.inl hs')) hsub, hdecl, hfrom⟩
      · rcases visitStmts_from fp cur orelse c hc with h | ⟨s', hs', t, nm, hsub, hdecl, hfrom⟩
        · exact Or.inl h
        · exact Or.inr ⟨t, nm,
            SubStmt.child (show s' ∈ childStmts (.ifStmt test body orelse) from
              List.mem_append.2 (Or.inr hs')) hsub, hdecl, hfrom⟩

theorem visitStmts_from (fp : String) (cur : Option String) :
    ∀ (ss : List Stmt) (c : CallRelation), c ∈ visitStmts fp cur ss →
      (∃ cf, cur = some cf ∧ c.from_function = cf) ∨
      (∃ s ∈ ss, ∃ t nm, SubStmt s t ∧ IsFunDeclOf t nm ∧
        c.from_function = fp ++ "::" ++ nm)
  | [], c, hc => by simp [visitStmts] at hc
  | s :: ss, c, hc => by
      simp only [visitStmts, List.mem_append] at hc
      rcases hc with hc | hc
      · rcases visitStmt_from fp cur s c hc with h | ⟨t, nm, hsub, hdecl, hfrom⟩
        · exact Or.inl h
        · exact Or.inr ⟨s, List.mem_cons_self s ss, t, nm, hsub, hdecl, hfrom⟩
      · rcases visitStmts_from fp cur ss c hc with h | ⟨s', hs', rest⟩
        · exact Or.inl h
        · exact Or.inr ⟨s', List.mem_cons_of_mem s hs', rest⟩

end

/-- Every call edge recorded for one file originates from a function or
coroutine-function declared somewhere in that file's tree, and carries that
declaration's synthesized id. -/
theorem parse_function_calls_from (tree : List Stmt) (fp : String)
    (c : CallRelation) (hc : c ∈ parse_function_calls tree fp) :
    ∃ t nm, (∃ s ∈ tree, SubStmt s t) ∧ IsFunDeclOf t nm ∧
      c.from_function = fp ++ "::" ++ nm := by
  rcases visitStmts_from fp none tree c hc with ⟨cf, hcf, _⟩ | ⟨s, hs, t, nm, hsub, hdecl, hfrom⟩
  · exact absurd hcf (by simp)
  · exact ⟨t, nm, ⟨s, hs, hsub⟩, hdecl, hfrom⟩


theorem mem_mapInsert (m : List (String × String)) (k v : String)
    (p : String × String) (hp : p ∈ mapInsert m k v) : p = (k, v) ∨ p ∈ m := by
  unfold mapInsert at hp
  by_cases h : m.any (fun q => q.1 = k)
  · rw [if_pos h] at hp
    rcases List.mem_map.1 hp with ⟨q, hq, hpq⟩
    by_cases hk : q.1 = k
    · rw [if_pos hk] at hpq
      exact Or.inl hpq.symm
    · rw [if_neg hk] at hpq
      exact Or.inr (hpq ▸ hq)
  · rw [if_neg h] at hp
    rcases List.mem_append.1 hp with hp | hp
    · exact Or.inr hp
    · simp only [List.mem_singleton] at hp
      exact Or.inl hp

theorem extractNodes_decl_mem (fp : String) :
    ∀ (nodes : List Stmt) (fmap : List (String × String)) (t : Stmt) (nm : String),
      t ∈ nodes → IsFunDeclOf t nm →
      ∃ fn ∈ (extractNodes fp nodes fmap).1, fn.name = nm ∧ fn.id = fp ++ "::" ++ nm
  | [], _, t, nm, ht, _ => absurd ht (List.not_mem_nil t)
  | s :: rest, fmap, t, nm, ht, hdecl => by
      rcases List.mem_cons.1 ht with rfl | ht2
      · rcases hdecl with ⟨l, b, rfl⟩ | ⟨l, b, rfl⟩
        · exact ⟨⟨fp ++ "::" ++ nm, nm, fp, l⟩, by simp [extractNodes], rfl, rfl⟩
        · exact ⟨⟨fp ++ "::" ++ nm, nm, fp, l⟩, by simp [extractNodes], rfl, rfl⟩
      · cases s with
        | functionDef n l b =>
          rcases extractNodes_decl_mem fp rest (mapInsert fmap n (fp ++ "::" ++ n)) t nm ht2 hdecl
            with ⟨fn, hfn, hname, hid⟩
          exact ⟨fn, by simp [extractNodes]; exact Or.inr hfn, hname, hid⟩
        | asyncFunctionDef n l b =>
          rcases extractNodes_decl_mem fp rest (mapInsert fmap n (fp ++ "::" ++ n)) t nm ht2 hdecl
            with ⟨fn, hfn, hname, hid⟩
          exact ⟨fn, by simp [extractNodes]; exact Or.inr hfn, hname, hid⟩
        | classDef n l b =>
          rcases extractNodes_decl_mem fp rest fmap t nm ht2 hdecl with ⟨fn, hfn, hname, hid⟩
          exact ⟨fn, by simp [extractNodes]; exact hfn, hname, hid⟩
        | importStmt names =>
          rcases extractNodes_decl_mem fp rest fmap t nm ht2 hdecl with ⟨fn, hfn, hname, hid⟩
          exact ⟨fn, by simp [extractNodes]; exact hfn, hname, hid⟩
        | importFrom m names =>
          rcases extractNodes_decl_mem fp rest fmap t nm ht2 hdecl with ⟨fn, hfn, hname, hid⟩
          exact ⟨fn, by simp [extractNodes]; exact hfn, hname, hid⟩
        | exprStmt e =>
          rcases extractNodes_decl_mem fp rest fmap t nm ht2 hdecl with ⟨fn, hfn, hname, hid⟩
          exact ⟨fn, by simp [extractNodes]; exact hfn, hname, hid⟩
        | ifStmt e b o =>
          rcases extractNodes_decl_mem fp rest fmap t nm ht2 hdecl with ⟨fn, hfn, hname, hid⟩
          exact ⟨fn, by simp [extractNodes]; exact hfn, hname, hid⟩

theorem extractNodes_fn_mem (fp : String) :
    ∀ (nodes : List Stmt) (fmap : List (String × String)) (fn : FunctionNode),
      fn ∈ (extractNodes fp nodes fmap).1 →
      ∃ t ∈ nodes, IsFunDeclOf t fn.name ∧ fn.id = fp ++ "::" ++ fn.name ∧
        fn.file_path = fp
  | [], _, fn, hfn => absurd hfn (by simp [extractNodes])
  | s :: rest, fmap, fn, hfn => by
      cases s with
      | functionDef n l b =>
        simp only [extractNodes, List.mem_cons] at hfn
        rcases hfn with rfl | hfn
        · exact ⟨.functionDef n l b, List.mem_cons_self _ _, Or.inl ⟨l, b, rfl⟩, rfl, rfl⟩
        · rcases extractNodes_fn_mem fp rest (mapInsert fmap n (fp ++ "::" ++ n)) fn hfn
            with ⟨t, ht, h⟩
          exact ⟨t, List.mem_cons_of_mem _ ht, h⟩
      | asyncFunctionDef n l b =>
        simp only [extractNodes, List.mem_cons] at hfn
        rcases hfn with rfl | hfn
        · exact ⟨.asyncFunctionDef n l b, List.mem_cons_self _ _, Or.inr ⟨l, b, rfl⟩, rfl, rfl⟩
        · rcases extractNodes_fn_mem fp rest (mapInsert fmap n (fp ++ "::" ++ n)) fn hfn
            with ⟨t, ht, h⟩
          exact ⟨t, List.mem_cons_of_mem _ ht, h⟩
      | classDef n l b =>
        simp only [extractNodes] at hfn
        rcases extractNodes_fn_mem fp rest fmap fn hfn with ⟨t, ht, h⟩
        exact ⟨t, List.mem_cons_of_mem _ ht, h⟩
      | importStmt names =>
        simp only [extractNodes] at hfn
        rcases extractNodes_fn_mem fp rest fmap fn hfn with ⟨t, ht, h⟩
        exact ⟨t, List.mem_cons_of_mem _ ht, h⟩
      | importFrom m names =>
        simp only [extractNodes] at hfn
        rcases extractNodes_fn_mem fp rest fmap fn hfn with ⟨t, ht, h⟩
        exact ⟨t, List.mem_cons_of_mem _ ht, h⟩
      | exprStmt e =>
        simp only [extractNodes] at hfn
        rcases extractNodes_fn_mem fp rest fmap fn hfn with ⟨t, ht, h⟩
        exact ⟨t, List.mem_cons_of_mem _ ht, h⟩
      | ifStmt e b o =>
        simp only [extractNodes] at hfn
        rcases extractNodes_fn_mem fp rest fmap fn hfn with ⟨t, ht, h⟩
        exact ⟨t, List.mem_cons_of_mem _ ht, h⟩

theorem extractNodes_map_mem (fp : String) :
    ∀ (nodes : List Stmt) (fmap : List (String × String)) (kv : String × String),
      kv ∈ (extractNodes fp nodes fmap).2.2 →
      (∃ fn ∈ (extractNodes fp nodes fmap).1, fn.name = kv.1 ∧ fn.id = kv.2) ∨ kv ∈ fmap
  | [], fmap, kv, hkv => Or.inr hkv
  | s :: rest, fmap, kv, hkv => by
      cases s with
      | functionDef n l b =>
        simp only [extractNodes] at hkv ⊢
        rcases extractNodes_map_mem fp rest (mapInsert fmap n (fp ++ "::" ++ n)) kv hkv
          with ⟨fn, hfn, h⟩ | hkv
        · exact Or.inl ⟨fn, List.mem_cons_of_mem _ hfn, h⟩
        · rcases mem_mapInsert fmap n (fp ++ "::" ++ n) kv hkv with rfl | hkv
          · exact Or.inl ⟨⟨fp ++ "::" ++ n, n, fp, l⟩, List.mem_cons_self _ _, rfl, rfl⟩
          · exact Or.inr hkv
      | asyncFunctionDef n l b =>
        simp only [extractNodes] at hkv ⊢
        rcases extractNodes_map_mem fp rest (mapInsert fmap n (fp ++ "::" ++ n)) kv hkv
          with ⟨fn, hfn, h⟩ | hkv
        · exact Or.inl ⟨fn, List.mem_cons_of_mem _ hfn, h⟩
        · rcases mem_mapInsert fmap n (fp ++ "::" ++ n) kv hkv with rfl | hkv
          · exact Or.inl ⟨⟨fp ++ "::" ++ n, n, fp, l⟩, List.mem_cons_self _ _, rfl, rfl⟩
          · exact Or.inr hkv
      | classDef n l b =>
        simp only [extractNodes] at hkv ⊢
        exact extractNodes_map_mem fp rest fmap kv hkv
      | importStmt names =>
        simp only [extractNodes] at hkv ⊢
        exact extractNodes_map_mem fp rest fmap kv hkv
      | importFrom m names =>
        simp only [extractNodes] at hkv ⊢
        exact extractNodes_map_mem fp rest fmap kv hkv
      | exprStmt e =>
        simp only [extractNodes] at hkv ⊢
        exact extractNodes_map_mem fp rest fmap kv hkv
      | ifStmt e b o =>
        simp only [extractNodes] at hkv ⊢
        exact extractNodes_map_mem fp rest fmap kv hkv

/-- Every import edge recorded for one file carries that file's relative
path as its source. -/
theorem parse_imports_from (tree : List Stmt) (fp : String)
    (e : ImportRelation) (he : e ∈ parse_imports tree fp) : e.from_file = fp := by
  rcases List.mem_flatMap.1 he with ⟨s, _, hs⟩
  cases s with
  | importStmt names =>
    rcases List.mem_map.1 hs with ⟨a, _, rfl⟩
    rfl
  | importFrom m names =>
    cases m with
    | none => simp [importEdgesOf] at hs
    | some mm =>
      rcases List.mem_map.1 hs with ⟨a, _, rfl⟩
      rfl
  | functionDef n l b => simp [importEdgesOf] at hs
  | asyncFunctionDef n l b => simp [importEdgesOf] at hs
  | classDef n l b => simp [importEdgesOf] at hs
  | exprStmt v => simp [importEdgesOf] at hs
  | ifStmt t b o => simp [importEdgesOf] at hs

/-- Generic preservation of a property of the aggregate along the
repository loop. -/
theorem parseRepoLoop_preserves (P : RepositoryData → Prop) :
    ∀ (fs : List PyFile) (acc : RepositoryData × Nat),
      (∀ d f, f ∈ fs → P d → P (parse_file d f).2) → P acc.1 →
      P (parseRepoLoop acc fs).1
  | [], acc, _, hacc => hacc
  | f :: rest, acc, hstep, hacc => by
      simp only [parseRepoLoop]
      exact parseRepoLoop_preserves P rest _
        (fun d g hg hd => hstep d g (List.mem_cons_of_mem f hg) hd)
        (hstep acc.1 f (List.mem_cons_self f rest) hacc)

/-- C1: entering a function or async-function declaration sets the
current-function slot to the declaration's synthesized id for its body and
restores the previous value on exit. In any file whose module body contains
a top-level function `g` with a nested function `h` whose body calls `x()`,
the emitted Call-edge for that call is attributed to `h`'s id
"{relative_path}::h" — never to `g`'s id — while statements of `g`'s body
before and after `h` are still attributed with `g`'s id current. -/
theorem nested_call_attributed_to_inner (fp g h x : String) (lg lh : Nat)
    (mpre mpost pre post : List Stmt) :
    parse_function_calls
      (mpre ++
        [.functionDef g lg
          (pre ++ [.functionDef h lh [.exprStmt (.call (.name x) [])]] ++ post)] ++
        mpost) fp =
      visitStmts fp none mpre ++
      (visitStmts fp (some (fp ++ "::" ++ g)) pre ++
        [{ from_function := fp ++ "::" ++ h, to_function := x }] ++
        visitStmts fp (some (fp ++ "::" ++ g)) post) ++
      visitStmts fp none mpost := by
  simp [parse_function_calls, visitStmts_append, visitStmts, visitStmt,
    visitExpr, visitExprs, callName]

/-- C3: the candidate called-name is determined by the call target's
shape — a bare name yields the identifier, an attribute access on a
bare-name receiver yields "receiver.attr", an attribute access on any other
receiver (chained call, subscript, nested attribute, constant) yields just
the attribute, and any other call-target shape yields no candidate, so the
call expression itself contributes no Call-edge. -/
theorem call_candidate_by_shape (fp cf id recv attr attr2 : String)
    (f u w : Expr) (args fargs : List Expr) :
    visitExpr fp (some cf) (.call (.name id) args) =
      { from_function := cf, to_function := id } :: visitExprs fp (some cf) args ∧
    visitExpr fp (some cf) (.call (.attribute (.name recv) attr) args) =
      { from_function := cf, to_function := recv ++ "." ++ attr } ::
        visitExprs fp (some cf) args ∧
    visitExpr fp (some cf) (.call (.attribute (.call f fargs) attr) args) =
      { from_function := cf, to_function := attr } ::
        (visitExpr fp (some cf) (.call f fargs) ++ visitExprs fp (some cf) args) ∧
    visitExpr fp (some cf) (.call (.attribute (.subscript u w) attr) args) =
      { from_function := cf, to_function := attr } ::
        (visitExpr fp (some cf) u ++ visitExpr fp (some cf) w ++
          visitExprs fp (some cf) args) ∧
    visitExpr fp (some cf) (.call (.attribute (.attribute u attr2) attr) args) =
      { from_function := cf, to_function := attr } ::
        (visitExpr fp (some cf) u ++ visitExprs fp (some cf) args) ∧
    visitExpr fp (some cf) (.call (.attribute .constant attr) args) =
      { from_function := cf, to_function := attr } :: visitExprs fp (some cf) args ∧
    callName (.call f fargs) = none ∧
    callName (.subscript u w) = none ∧
    callName Expr.constant = none ∧
    visitExpr fp (some cf) (.call (.call f fargs) args) =
      visitExpr fp (some cf) (.call f fargs) ++ visitExprs fp (some cf) args ∧
    visitExpr fp (some cf) (.call (.subscript u w) args) =
      visitExpr fp (some cf) u ++ visitExpr fp (some cf) w ++
        visitExprs fp (some cf) args ∧
    visitExpr fp (some cf) (.call .constant args) = visitExprs fp (some cf) args := by
  refine ⟨?_, ?_, ?_, ?_, ?_, ?_, rfl, rfl, rfl, ?_, ?_, ?_⟩ <;>
    simp [visitExpr, callName]

mutual

theorem visitExpr_none (fp : String) : ∀ (e : Expr), visitExpr fp none e = []
  | .name _ => by simp [visitExpr]
  | .attribute v _ => by simpa [visitExpr] using visitExpr_none fp v
  | .call f args => by
      cases hcn : callName f <;>
        simp [visitExpr, hcn, visitExpr_none fp f, visitExprs_none fp args]
  | .subscript v i => by
      simp [visitExpr, visitExpr_none fp v, visitExpr_none fp i]
  | .constant => by simp [visitExpr]

theorem visitExprs_none (fp : String) : ∀ (es : List Expr), visitExprs fp none es = []
  | [] => by simp [visitExprs]
  | e :: es => by simp [visitExprs, visitExpr_none fp e, visitExprs_none fp es]

end

/-- C6: a call expression visited with no enclosing function declaration
emits no Call-edge whatever its shape; consequently, in any module — also
one that declares functions of its own — an expression statement at module
scope contributes nothing to the recorded calls, both directly in the
module body and directly inside a class body at module scope (a class body
is traversed with the current-function slot unchanged). -/
theorem module_scope_calls_never_emitted (fp cn : String) (l : Nat) (e : Expr)
    (mpre mpost cpre cpost body : List Stmt) :
    visitExpr fp none e = [] ∧
    visitStmt fp none (.classDef cn l body) = visitStmts fp none body ∧
    parse_function_calls (mpre ++ [.exprStmt e] ++ mpost) fp =
      parse_function_calls (mpre ++ mpost) fp ∧
    parse_function_calls
        (mpre ++ [.classDef cn l (cpre ++ [.exprStmt e] ++ cpost)] ++ mpost) fp =
      parse_function_calls (mpre ++ [.classDef cn l (cpre ++ cpost)] ++ mpost) fp := by
  refine ⟨visitExpr_none fp e, by simp [visitStmt], ?_, ?_⟩
  · simp [parse_function_calls, visitStmts_append, visitStmts, visitStmt,
      visitExpr_none fp e]
  · simp [parse_function_calls, visitStmts_append, visitStmts, visitStmt,
      visitExpr_none fp e]

/-- C10: parse failure is atomic — when reading a file's text or parsing it
into a syntax tree raises, `parse_file` returns `False` and the aggregate is
exactly as it was before the call. -/
theorem parse_file_failure_atomic (d : RepositoryData) (f : PyFile)
    (hf : f.parsed = none) : parse_file d f = (false, d) := by
  simp [parse_file, hf]

/-- Witness for C10 at a concrete non-empty aggregate and a failing file:
the aggregate comes back exactly as it was. -/
theorem parse_file_failure_atomic_witness :
    (({ path := "/r/bad.py", relativePath := "bad.py", parsed := none } : PyFile).parsed
      = none) ∧
    parse_file
        { files := [⟨"/r/a.py", "a.py"⟩],
          functions := [⟨"a.py::foo", "foo", "a.py", 1⟩],
          classes := [⟨"a.py::C", "C", "a.py", 3⟩],
          imports := [⟨"a.py", "os.py", "os"⟩],
          calls := [⟨"a.py::foo", "bar"⟩],
          function_map := [("foo", "a.py::foo")] }
        { path := "/r/bad.py", relativePath := "bad.py", parsed := none } =
      (false,
        { files := [⟨"/r/a.py", "a.py"⟩],
          functions := [⟨"a.py::foo", "foo", "a.py", 1⟩],
          classes := [⟨"a.py::C", "C", "a.py", 3⟩],
          imports := [⟨"a.py", "os.py", "os"⟩],
          calls := [⟨"a.py::foo", "bar"⟩],
          function_map := [("foo", "a.py::foo")] }) :=
  ⟨rfl,
   parse_file_failure_atomic
     { files := [⟨"/r/a.py", "a.py"⟩],
       functions := [⟨"a.py::foo", "foo", "a.py", 1⟩],
       classes := [⟨"a.py::C", "C", "a.py", 3⟩],
       imports := [⟨"a.py", "os.py", "os"⟩],
       calls := [⟨"a.py::foo", "bar"⟩],
       function_map := [("foo", "a.py::foo")] }
     { path := "/r/bad.py", relativePath := "bad.py", parsed := none } rfl⟩

theorem parseRepoLoop_spec :
    ∀ (fs : List PyFile) (d : RepositoryData) (n : Nat),
      (parseRepoLoop (d, n) fs).2 = n + (fs.filter (fun f => f.parsed.isSome)).length ∧
      (parseRepoLoop (d, n) fs).1.files =
        d.files ++ (fs.filter (fun f => f.parsed.isSome)).map
          (fun f => ⟨f.path, f.relativePath⟩)
  | [], d, n => by simp [parseRepoLoop]
  | f :: rest, d, n => by
      cases hp : f.parsed with
      | none =>
        have ih := parseRepoLoop_spec rest d n
        simpa [parseRepoLoop, parse_file, hp] using ih
      | some tree =>
        have ih := parseRepoLoop_spec rest
          { files := d.files ++ [⟨f.path, f.relativePath⟩]
            functions := d.functions ++
              (extract_functions_and_classes tree f.relativePath d.function_map).1
            classes := d.classes ++
              (extract_functions_and_classes tree f.relativePath d.function_map).2.1
            imports := d.imports ++ parse_imports tree f.relativePath
            calls := d.calls ++ parse_function_calls tree f.relativePath
            function_map :=
              (extract_functions_and_classes tree f.relativePath d.function_map).2.2 }
          (n + 1)
        simp only [parseRepoLoop, parse_file, hp, reduceIte] at ih ⊢
        refine ⟨?_, ?_⟩
        · rw [ih.1, List.filter_cons_of_pos (by simp [hp])]
          simp only [List.length_cons]
          omega
        · rw [ih.2, List.filter_cons_of_pos (by simp [hp])]
          simp

/-- C5: a file whose text fails to parse is skipped, not fatal — the driver
records exactly the successfully parsed files, the success count equals the
number of those files, and success count plus failure count equals the
number of discovered files. -/
theorem parse_failures_are_skips (fs : List PyFile) :
    (parse_repository fs).2 = (fs.filter (fun f => f.parsed.isSome)).length ∧
    (parse_repository fs).2 + (fs.filter (fun f => f.parsed.isNone)).length = fs.length ∧
    (parse_repository fs).1.files =
      (fs.filter (fun f => f.parsed.isSome)).map (fun f => ⟨f.path, f.relativePath⟩) := by
  have hspec := parseRepoLoop_spec fs emptyData 0
  have hsplit : ∀ (l : List PyFile),
      (l.filter (fun f => f.parsed.isSome)).length +
        (l.filter (fun f => f.parsed.isNone)).length = l.length := by
    intro l
    induction l with
    | nil => simp
    | cons f rest ih =>
      cases hp : f.parsed <;> simp [List.filter_cons, hp] <;> omega
  refine ⟨by rw [show parse_repository fs = parseRepoLoop (emptyData, 0) fs from rfl,
    hspec.1]; omega, ?_, ?_⟩
  · rw [show parse_repository fs = parseRepoLoop (emptyData, 0) fs from rfl, hspec.1]
    have := hsplit fs
    omega
  · rw [show parse_repository fs = parseRepoLoop (emptyData, 0) fs from rfl, hspec.2]
    simp [emptyData]

/-- C2: at ingestion a Call-edge produces exactly one call edge when its
`to_function` name resolves in the name→id table and nothing when it does
not (no dangling edge); and for the fixture repository with `a.py` defining
`foo()` and `b.py` defining `bar()` which calls `foo()`, resolution links
"b.py::bar" to "a.py::foo". -/
theorem call_edge_resolution (calls : List CallRelation)
    (fmap : List (String × String)) (fid tid : String) :
    ((fid, tid) ∈ ingest_calls calls fmap ↔
      ∃ c ∈ calls, c.from_function = fid ∧ mapGet fmap c.to_function = some tid) ∧
    ingest_calls
        (parse_repository
          [⟨"/repo/a.py", "a.py", some [.functionDef "foo" 1 []]⟩,
           ⟨"/repo/b.py", "b.py",
              some [.functionDef "bar" 1 [.exprStmt (.call (.name "foo") [])]]⟩]).1.calls
        (parse_repository
          [⟨"/repo/a.py", "a.py", some [.functionDef "foo" 1 []]⟩,
           ⟨"/repo/b.py", "b.py",
              some [.functionDef "bar" 1 [.exprStmt (.call (.name "foo") [])]]⟩]).1.function_map =
      [("b.py::bar", "a.py::foo")] := by
  constructor
  · unfold ingest_calls
    rw [List.mem_flatMap]
    constructor
    · rintro ⟨c, hc, hmem⟩
      cases hm : mapGet fmap c.to_function with
      | none => rw [hm] at hmem; simp at hmem
      | some v =>
        rw [hm] at hmem
        simp only [List.mem_singleton, Prod.mk.injEq] at hmem
        exact ⟨c, hc, hmem.1.symm, by rw [hm, hmem.2]⟩
    · rintro ⟨c, hc, hfrom, hget⟩
      refine ⟨c, hc, ?_⟩
      rw [hget]
      simp [hfrom]
  · decide

/-- C7: each plain import statement emits one Import-edge per imported
alias, with `to_file` the dotted module path split on "." and joined with
the path separator plus ".py", and `imported_name` the literal dotted path;
each "from module import symbol" statement with a named module emits one
edge per symbol with the same path construction and imported name
"{module}.{symbol}"; a from-import without a module name emits nothing. -/
theorem import_extraction (fp : String) (tree : List Stmt) (e : ImportRelation) :
    (e ∈ parse_imports tree fp ↔
      (∃ names, ∃ a ∈ names, Stmt.importStmt names ∈ walkBFS tree ∧
        e = ⟨fp, modulePotentialPath a.name, a.name⟩) ∨
      (∃ m names, ∃ a ∈ names, Stmt.importFrom (some m) names ∈ walkBFS tree ∧
        e = ⟨fp, modulePotentialPath m, m ++ "." ++ a.name⟩)) ∧
    (∀ names, importEdgesOf fp (.importFrom none names) = []) ∧
    modulePotentialPath "pkg.sub.mod" = "pkg/sub/mod.py" := by
  refine ⟨?_, fun names => rfl, by decide⟩
  unfold parse_imports
  rw [List.mem_flatMap]
  constructor
  · rintro ⟨s, hs, he⟩
    cases s with
    | importStmt names =>
      rcases List.mem_map.1 he with ⟨a, ha, rfl⟩
      exact Or.inl ⟨names, a, ha, hs, rfl⟩
    | importFrom m names =>
      cases m with
      | none => simp [importEdgesOf] at he
      | some mm =>
        rcases List.mem_map.1 he with ⟨a, ha, rfl⟩
        exact Or.inr ⟨mm, names, a, ha, hs, rfl⟩
    | functionDef nn l b => simp [importEdgesOf] at he
    | asyncFunctionDef nn l b => simp [importEdgesOf] at he
    | classDef nn l b => simp [importEdgesOf] at he
    | exprStmt v => simp [importEdgesOf] at he
    | ifStmt t b o => simp [importEdgesOf] at he
  · rintro (⟨names, a, ha, hs, rfl⟩ | ⟨m, names, a, ha, hs, rfl⟩)
    · exact ⟨.importStmt names, hs, List.mem_map.2 ⟨a, ha, rfl⟩⟩
    · exact ⟨.importFrom (some m) names, hs, List.mem_map.2 ⟨a, ha, rfl⟩⟩

/-- C4: when two files each define a function with the same name, the
name→id table retains exactly one mapping for that name — the id of the
function discovered last in traversal order — while both FunctionNode
entries exist independently in the aggregate's functions sequence. -/
theorem duplicate_name_last_write_wins (p1 p2 fp1 fp2 n : String) (l1 l2 : Nat) :
    (parse_repository
      [⟨p1, fp1, some [.functionDef n l1 []]⟩,
       ⟨p2, fp2, some [.functionDef n l2 []]⟩]).1.function_map =
      [(n, fp2 ++ "::" ++ n)] ∧
    (parse_repository
      [⟨p1, fp1, some [.functionDef n l1 []]⟩,
       ⟨p2, fp2, some [.functionDef n l2 []]⟩]).1.functions =
      [⟨fp1 ++ "::" ++ n, n, fp1, l1⟩, ⟨fp2 ++ "::" ++ n, n, fp2, l2⟩] := by
  simp [parse_repository, parseRepoLoop, parse_file, extract_functions_and_classes,
    extractNodes, walkBFS_cons, walkBFS_nil, mapInsert, emptyData, childStmts]

theorem parse_file_sourcesOk (d : RepositoryData) (f : PyFile) (hd : SourcesOk d) :
    SourcesOk (parse_file d f).2 := by
  cases hp : f.parsed with
  | none => simpa [parse_file, hp] using hd
  | some tree =>
    constructor
    · intro imp himp
      simp only [parse_file, hp, List.mem_append] at himp ⊢
      rcases himp with himp | himp
      · rcases hd.1 imp himp with ⟨fl, hfl, heq⟩
        exact ⟨fl, Or.inl hfl, heq⟩
      · exact ⟨⟨f.path, f.relativePath⟩, Or.inr (List.mem_singleton.2 rfl),
          parse_imports_from tree f.relativePath imp himp⟩
    · intro c hc
      simp only [parse_file, hp, List.mem_append] at hc ⊢
      rcases hc with hc | hc
      · rcases hd.2 c hc with ⟨fn, hfn, heq⟩
        exact ⟨fn, Or.inl hfn, heq⟩
      · rcases parse_function_calls_from tree f.relativePath c hc with
          ⟨t, nm, ⟨s, hs, hsub⟩, hdecl, hfrom⟩
        have ht : t ∈ walkBFS tree := (mem_walkBFS_iff tree t).2 ⟨s, hs, hsub⟩
        rcases extractNodes_decl_mem f.relativePath (walkBFS tree) d.function_map t nm
          ht hdecl with ⟨fn, hfn, hname, hid⟩
        refine ⟨fn, Or.inr ?_, by rw [hfrom, hid]⟩
        simpa [extract_functions_and_classes] using hfn

/-- C8: in the finished aggregate, the source side of every edge references
an entity created during the same run — every Import-edge's `from_file` is
the relative path of some recorded FileNode, and every Call-edge's
`from_function` is the id of some recorded FunctionNode. -/
theorem edge_sources_exist (fs : List PyFile) :
    (∀ imp ∈ (parse_repository fs).1.imports,
      ∃ f ∈ (parse_repository fs).1.files, imp.from_file = f.relative_path) ∧
    (∀ c ∈ (parse_repository fs).1.calls,
      ∃ fn ∈ (parse_repository fs).1.functions, c.from_function = fn.id) :=
  parseRepoLoop_preserves SourcesOk fs (emptyData, 0)
    (fun d f _ hd => parse_file_sourcesOk d f hd)
    ⟨fun imp himp => absurd himp (by simp [emptyData]),
     fun c hc => absurd hc (by simp [emptyData])⟩

/-- Witness for C8 at a concrete two-file repository: the recorded import
edge of `b.py` points back to `b.py`'s FileNode and the recorded call edge
of `bar` points back to `bar`'s FunctionNode. -/
theorem edge_sources_exist_witness :
    (({ from_file := "b.py", to_file := "a.py", import_name := "a" } : ImportRelation) ∈
      (parse_repository
        [⟨"/repo/a.py", "a.py", some [.functionDef "foo" 1 []]⟩,
         ⟨"/repo/b.py", "b.py",
            some [.importStmt [⟨"a"⟩],
                  .functionDef "bar" 2 [.exprStmt (.call (.name "foo") [])]]⟩]).1.imports) ∧
    (∃ f ∈ (parse_repository
        [⟨"/repo/a.py", "a.py", some [.functionDef "foo" 1 []]⟩,
         ⟨"/repo/b.py", "b.py",
            some [.importStmt [⟨"a"⟩],
                  .functionDef "bar" 2 [.exprStmt (.call (.name "foo") [])]]⟩]).1.files,
      ({ from_file := "b.py", to_file := "a.py", import_name := "a" } :
        ImportRelation).from_file = f.relative_path) ∧
    (({ from_function := "b.py::bar", to_function := "foo" } : CallRelation) ∈
      (parse_repository
        [⟨"/repo/a.py", "a.py", some [.functionDef "foo" 1 []]⟩,
         ⟨"/repo/b.py", "b.py",
            some [.importStmt [⟨"a"⟩],
                  .functionDef "bar" 2 [.exprStmt (.call (.name "foo") [])]]⟩]).1.calls) ∧
    (∃ fn ∈ (parse_repository
        [⟨"/repo/a.py", "a.py", some [.functionDef "foo" 1 []]⟩,
         ⟨"/repo/b.py", "b.py",
            some [.importStmt [⟨"a"⟩],
                  .functionDef "bar" 2 [.exprStmt (.call (.name "foo") [])]]⟩]).1.functions,
      ({ from_function := "b.py::bar", to_function := "foo" } :
        CallRelation).from_function = fn.id) :=
  ⟨by decide,
   (edge_sources_exist
      [⟨"/repo/a.py", "a.py", some [.functionDef "foo" 1 []]⟩,
       ⟨"/repo/b.py", "b.py",
          some [.importStmt [⟨"a"⟩],
                .functionDef "bar" 2 [.exprStmt (.call (.name "foo") [])]]⟩]).1
     { from_file := "b.py", to_file := "a.py", import_name := "a" } (by decide),
   by decide,
   (edge_sources_exist
      [⟨"/repo/a.py", "a.py", some [.functionDef "foo" 1 []]⟩,
       ⟨"/repo/b.py", "b.py",
          some [.importStmt [⟨"a"⟩],
                .functionDef "bar" 2 [.exprStmt (.call (.name "foo") [])]]⟩]).2
     { from_function := "b.py::bar", to_function := "foo" } (by decide)⟩

theorem parse_file_mapOk (d : RepositoryData) (f : PyFile) (hd : FunctionMapOk d) :
    FunctionMapOk (parse_file d f).2 := by
  cases hp : f.parsed with
  | none => simpa [parse_file, hp] using hd
  | some tree =>
    intro kv hkv
    simp only [parse_file, hp] at hkv ⊢
    rcases extractNodes_map_mem f.relativePath (walkBFS tree) d.function_map kv
        (by simpa [extract_functions_and_classes] using hkv) with
      ⟨fn, hfn, hname, hid⟩ | hkv2
    · exact ⟨fn, List.mem_append.2
        (Or.inr (by simpa [extract_functions_and_classes] using hfn)), hname, hid⟩
    · rcases hd kv hkv2 with ⟨fn, hfn, h⟩
      exact ⟨fn, List.mem_append.2 (Or.inl hfn), h⟩

theorem parse_file_keysDotFree (d : RepositoryData) (f : PyFile)
    (hf : fileDefsDotFree f = true) (hd : MapKeysDotFree d) :
    MapKeysDotFree (parse_file d f).2 := by
  cases hp : f.parsed with
  | none => simpa [parse_file, hp] using hd
  | some tree =>
    intro kv hkv
    simp only [parse_file, hp] at hkv
    rcases extractNodes_map_mem f.relativePath (walkBFS tree) d.function_map kv
        (by simpa [extract_functions_and_classes] using hkv) with
      ⟨fn, hfn, hname, hid⟩ | hkv2
    · rcases extractNodes_fn_mem f.relativePath (walkBFS tree) d.function_map fn hfn with
        ⟨t, ht, hdecl, _, _⟩
      have hall : treeDefsDotFree tree = true := by simpa [fileDefsDotFree, hp] using hf
      have hstmt := List.all_eq_true.1 hall t ht
      rw [← hname]
      rcases hdecl with ⟨l, b, rfl⟩ | ⟨l, b, rfl⟩ <;>
        simpa [stmtNamesDotFree] using hstmt
    · exact hd kv hkv2

theorem dotFree_ne_dotted (s r mm : String) (h : dotFree s = true) :
    s ≠ r ++ "." ++ mm := by
  intro heq
  subst heq
  unfold dotFree at h
  rw [List.all_eq_true] at h
  have hdot : ('.' : Char) ∈ (r ++ "." ++ mm).data := by
    rw [String.data_append, String.data_append]
    exact List.mem_append.2 (Or.inl (List.mem_append.2 (Or.inr (by decide))))
  have hc := h '.' hdot
  simp at hc

theorem mapGet_dotted_none (m : List (String × String))
    (hkeys : ∀ kv ∈ m, dotFree kv.1 = true) (r mm : String) :
    mapGet m (r ++ "." ++ mm) = none := by
  have hfind : m.find? (fun p => p.1 = r ++ "." ++ mm) = none :=
    List.find?_eq_none.2 (fun p hp => by
      simpa using dotFree_ne_dotted p.1 r mm (hkeys p hp))
  unfold mapGet
  rw [hfind]
  rfl

/-- C9: every key of the name→id table is the bare declared name of some
discovered function (class names are never inserted), under the Python
identifier guarantee no key contains a dot, and consequently every
Call-edge whose candidate has the dotted form "receiver.method" is
unresolved at ingestion and produces no call edge. -/
theorem function_map_key_shape (fs : List PyFile)
    (hnames : fs.all fileDefsDotFree = true) :
    (∀ kv ∈ (parse_repository fs).1.function_map,
      ∃ fn ∈ (parse_repository fs).1.functions, fn.name = kv.1 ∧ fn.id = kv.2) ∧
    (∀ kv ∈ (parse_repository fs).1.function_map, dotFree kv.1 = true) ∧
    (∀ r mm : String,
      mapGet (parse_repository fs).1.function_map (r ++ "." ++ mm) = none) ∧
    (∀ (c : CallRelation) (r mm : String), c.to_function = r ++ "." ++ mm →
      ingest_calls [c] (parse_repository fs).1.function_map = []) := by
  have hmapok : FunctionMapOk (parse_repository fs).1 :=
    parseRepoLoop_preserves FunctionMapOk fs (emptyData, 0)
      (fun d f _ hd => parse_file_mapOk d f hd)
      (fun kv hkv => absurd hkv (by simp [emptyData]))
  have hdf : MapKeysDotFree (parse_repository fs).1 :=
    parseRepoLoop_preserves MapKeysDotFree fs (emptyData, 0)
      (fun d f hf hd => parse_file_keysDotFree d f (List.all_eq_true.1 hnames f hf) hd)
      (fun kv hkv => absurd hkv (by simp [emptyData]))
  refine ⟨hmapok, hdf, fun r mm => mapGet_dotted_none _ hdf r mm, ?_⟩
  intro c r mm hto
  unfold ingest_calls
  simp [hto, mapGet_dotted_none _ hdf r mm]

/-- Witness for C9 at a concrete repository whose `b.py` declares a class
`C` with a method `m` and a function `bar` calling `obj.m()`: the dotted
candidate "obj.m" resolves to nothing and the call is dropped at
ingestion. -/
theorem function_map_key_shape_witness :
    ([(⟨"/repo/b.py", "b.py",
        some [.classDef "C" 1 [.functionDef "m" 2 []],
              .functionDef "bar" 3
                [.exprStmt (.call (.attribute (.name "obj") "m") [])]]⟩ : PyFile)].all
      fileDefsDotFree = true) ∧
    mapGet
      (parse_repository
        [⟨"/repo/b.py", "b.py",
          some [.classDef "C" 1 [.functionDef "m" 2 []],
                .functionDef "bar" 3
                  [.exprStmt (.call (.attribute (.name "obj") "m") [])]]⟩]).1.function_map
      ("obj" ++ "." ++ "m") = none ∧
    ingest_calls [{ from_function := "b.py::bar", to_function := "obj" ++ "." ++ "m" }]
      (parse_repository
        [⟨"/repo/b.py", "b.py",
          some [.classDef "C" 1 [.functionDef "m" 2 []],
                .functionDef "bar" 3
                  [.exprStmt (.call (.attribute (.name "obj") "m") [])]]⟩]).1.function_map
      = [] :=
  ⟨by decide,
   (function_map_key_shape
      [⟨"/repo/b.py", "b.py",
        some [.classDef "C" 1 [.functionDef "m" 2 []],
              .functionDef "bar" 3
                [.exprStmt (.call (.attribute (.name "obj") "m") [])]]⟩]
      (by decide)).2.2.1 "obj" "m",
   (function_map_key_shape
      [⟨"/repo/b.py", "b.py",
        some [.classDef "C" 1 [.functionDef "m" 2 []],
              .functionDef "bar" 3
                [.exprStmt (.call (.attribute (.name "obj") "m") [])]]⟩]
      (by decide)).2.2.2
     { from_function := "b.py::bar", to_function := "obj" ++ "." ++ "m" }
     "obj" "m" rfl⟩

end KnGraph
